import Mathlib

/-!
Verification of `thalesfsp/go-common-types`.

Shallow embedding of the Go sources under verification:
* `safeorderedmap/safeorderedmap.go` — the `SafeOrderedMap[T]` container:
  a Go `map[string]T` paired with an insertion-order key slice, guarded by
  a `sync.RWMutex`.  The lock only serialises calls and plays no role in
  the sequential semantics, so the pure model drops it.  The Go map is
  modelled as an association list whose keys stay pairwise distinct by
  construction of the write operations.
* `statistical/statistical.go` — descriptive statistics over number
  slices.  `float64` arithmetic is modelled exactly over `ℚ`, with an
  explicit `GoFloat` codomain for the one place (`Mean`) where IEEE
  division by zero is observable, and a `GoResult` codomain distinguishing
  a returned error from a runtime panic (out-of-range slice index).
-/

set_option autoImplicit false

namespace GoCommonTypes

/-- Go map read `d[k]` on the association-list model of `map[string]T`:
the value of the first (hence, with unique keys, the only) binding of `k`. -/
def mapGet {T : Type} (d : List (String × T)) (k : String) : Option T :=
  match d with
  | [] => none
  | (k2, v) :: rest => if k2 = k then some v else mapGet rest k

/-- Go map write `d[k] = v`: overwrite the binding of `k` in place when
present, append a fresh binding otherwise. -/
def mapSet {T : Type} (d : List (String × T)) (k : String) (v : T) :
    List (String × T) :=
  match d with
  | [] => [(k, v)]
  | (k2, v2) :: rest =>
    if k2 = k then (k2, v) :: rest else (k2, v2) :: mapSet rest k v

/-- Go `delete(d, k)`: drop the binding of `k`. -/
def mapDel {T : Type} (d : List (String × T)) (k : String) :
    List (String × T) :=
  match d with
  | [] => []
  | (k2, v2) :: rest =>
    if k2 = k then mapDel rest k else (k2, v2) :: mapDel rest k

/-- `SafeOrderedMap` (safeorderedmap.go, lines 13-19): `data` is the
Go map `map[string]T`, `order` the slice of keys in insertion order.
The `sync.RWMutex` field is dropped in this pure sequential model. -/
structure SafeOrderedMap (T : Type) where
  data : List (String × T)
  order : List String
  deriving Repr, DecidableEq

namespace SafeOrderedMap

/-- `New` (line 490): the empty map. -/
def New (T : Type) : SafeOrderedMap T := ⟨[], []⟩

/-- `Add` (line 42): append `key` to `order` when it is not yet a key of
`data`, then upsert `data[key] = value`. -/
def Add {T : Type} (m : SafeOrderedMap T) (k : String) (v : T) :
    SafeOrderedMap T :=
  { data := mapSet m.data k v
    order := if (mapGet m.data k).isSome then m.order else m.order ++ [k] }

/-- `Get` (line 56): a paired value and presence flag; the value is the
Go zero value (`default`) when the key is absent. -/
def Get {T : Type} [Inhabited T] (m : SafeOrderedMap T) (k : String) :
    T × Bool :=
  match mapGet m.data k with
  | some v => (v, true)
  | none => (default, false)

/-- The `for i, k := range m.order` loop of `Delete` (lines 73-79):
remove the first occurrence of `k`, then `break`. -/
def eraseFirst (l : List String) (k : String) : List String :=
  match l with
  | [] => []
  | x :: rest => if x = k then rest else x :: eraseFirst rest k

/-- `Delete` (line 66): when the key is in `data`, delete it there and
drop its first occurrence from `order`; otherwise do nothing. -/
def Delete {T : Type} (m : SafeOrderedMap T) (k : String) :
    SafeOrderedMap T :=
  if (mapGet m.data k).isSome then
    { data := mapDel m.data k, order := eraseFirst m.order k }
  else m

/-- `Keys` (line 89): the `order` slice (the Go code hands out a copy;
copying is identity in a pure model). -/
def Keys {T : Type} (m : SafeOrderedMap T) : List String := m.order

/-- `Values` (line 101): `data` reads along `order`; a Go map read of a
missing key yields the zero value. -/
def Values {T : Type} [Inhabited T] (m : SafeOrderedMap T) : List T :=
  m.order.map (fun k => (mapGet m.data k).getD default)

/-- The scan of `Index` (lines 164-168), carrying the running position. -/
def indexAux {T : Type} [Inhabited T] (d : List (String × T)) (k : String) :
    List String → Nat → Int × T × Bool
  | [], _ => (-1, default, false)
  | x :: rest, i =>
    if x = k then ((i : Int), (mapGet d k).getD default, true)
    else indexAux d k rest (i + 1)

/-- `Index` (line 160): position of `k` in `order` with its value, or
`(-1, zero value, false)`. -/
def Index {T : Type} [Inhabited T] (m : SafeOrderedMap T) (k : String) :
    Int × T × Bool :=
  indexAux m.data k m.order 0

/-- The loop of `TakeWhile` (lines 328-334): add while the predicate
holds, `break` at the first failure. -/
def takeWhileAux {T : Type} [Inhabited T] (d : List (String × T))
    (p : String → T → Bool) :
    List String → SafeOrderedMap T → SafeOrderedMap T
  | [], acc => acc
  | k :: rest, acc =>
    if p k ((mapGet d k).getD default) then
      takeWhileAux d p rest (acc.Add k ((mapGet d k).getD default))
    else acc

/-- `TakeWhile` (line 322): the longest prefix of entries satisfying the
predicate, collected into a fresh map. -/
def TakeWhile {T : Type} [Inhabited T] (m : SafeOrderedMap T)
    (p : String → T → Bool) : SafeOrderedMap T :=
  takeWhileAux m.data p m.order (New T)

/-- The loop of `DropWhile` (lines 354-363), carrying the `dropping`
flag. -/
def dropWhileAux {T : Type} [Inhabited T] (d : List (String × T))
    (p : String → T → Bool) :
    List String → Bool → SafeOrderedMap T → SafeOrderedMap T
  | [], _, acc => acc
  | k :: rest, dropping, acc =>
    let dropping2 :=
      if dropping && !(p k ((mapGet d k).getD default)) then false
      else dropping
    let acc2 :=
      if dropping2 then acc else acc.Add k ((mapGet d k).getD default)
    dropWhileAux d p rest dropping2 acc2

/-- `DropWhile` (line 348): every entry from the first predicate failure
onward, collected into a fresh map. -/
def DropWhile {T : Type} [Inhabited T] (m : SafeOrderedMap T)
    (p : String → T → Bool) : SafeOrderedMap T :=
  dropWhileAux m.data p m.order true (New T)

/-- `UnmarshalJSON` (line 465).  The call `json.Unmarshal(data, &temp)`
is modelled by its outcome `decoded`: `Except.error` when the input is
not a well-formed JSON object compatible with `T` (in which case the Go
method returns the error with the receiver untouched), or the decoded
object's bindings in Go map iteration order, keys pairwise distinct.
On success the Go code resets `order` to empty and then, per decoded
key, appends the key to `order` and upserts it into the EXISTING `data`
map, which is never cleared. -/
def UnmarshalJSON {T : Type} (m : SafeOrderedMap T)
    (decoded : Except String (List (String × T))) :
    Except String Unit × SafeOrderedMap T :=
  match decoded with
  | .error e => (.error e, m)
  | .ok temp =>
    (.ok (),
      temp.foldl
        (fun acc kv => { data := mapSet acc.data kv.1 kv.2
                         order := acc.order ++ [kv.1] })
        { data := m.data, order := [] })

/-- True exactly on `Except.ok`. -/
def exceptIsOk {E A : Type} : Except E A → Bool
  | .ok _ => true
  | .error _ => false

/-- Invariant I1 of the spec, in the three conjuncts of claim C1: no key
occurs twice in `order`, every key of `order` is a key of `data`, and
every key of `data` occurs in `order`. -/
def Invariant {T : Type} (m : SafeOrderedMap T) : Prop :=
  m.order.Nodup ∧
  (∀ k ∈ m.order, (mapGet m.data k).isSome) ∧
  (∀ p ∈ m.data, p.1 ∈ m.order)

instance {T : Type} (m : SafeOrderedMap T) : Decidable m.Invariant := by
  unfold Invariant
  infer_instance

/-- A sequence of `Add` calls, left to right. -/
def foldAdd {T : Type} (m : SafeOrderedMap T) (ps : List (String × T)) :
    SafeOrderedMap T :=
  ps.foldl (fun a kv => a.Add kv.1 kv.2) m

/-- Zero-based rank of a key in a key list (first occurrence). -/
def rankOf (k : String) : List String → Nat
  | [] => 0
  | x :: rest => if x = k then 0 else rankOf k rest + 1

end SafeOrderedMap

/-! Statistical module (statistical.go).  Values of type `float64` are
modelled exactly over `ℚ`; the claims settled here concern error paths,
in-place mutation of the argument slice and the division-by-zero
behaviour of `Mean`, none of which depends on rounding. -/

/-- Result of one IEEE double operation whose operands are finite:
either a finite value, a NaN, or an infinity. -/
inductive GoFloat : Type where
  | nan : GoFloat
  | inf : GoFloat
  | negInf : GoFloat
  | val : ℚ → GoFloat
  deriving Repr, DecidableEq

/-- IEEE division of finite operands: `0/0` is NaN, `a/0` for `a ≠ 0`
is a signed infinity, otherwise the exact quotient. -/
def fdiv (a b : ℚ) : GoFloat :=
  if b = 0 then
    if a = 0 then .nan else if 0 < a then .inf else .negInf
  else .val (a / b)

/-- Finite value of a `GoFloat`, defaulting to `0`; used where the Go
code consumes a `float64` that is provably finite in context. -/
def GoFloat.getVal : GoFloat → ℚ
  | .val q => q
  | _ => 0

/-- Outcome of a statistical function: a returned value, a returned
`error`, or a runtime panic (out-of-range slice index). -/
inductive GoResult (α : Type) : Type where
  | ok : α → GoResult α
  | err : String → GoResult α
  | panicked : GoResult α
  deriving Repr, DecidableEq

/-- True exactly on `GoResult.err`. -/
def GoResult.isErr {α : Type} : GoResult α → Bool
  | .err _ => true
  | _ => false

/-- The in-place `sort.Slice(s, func(i, j int) bool { return s[i] < s[j] })`
of statistical.go: with a strict-less comparator over a linear order the
sorted rearrangement of the values is unique, so any sorting algorithm
yields the same list; insertion sort by `≤` computes it. -/
def sortGo (s : List ℚ) : List ℚ :=
  s.insertionSort (· ≤ ·)

/-- `Mean` (statistical.go line 72): left fold of `+` from `0.0`,
divided by the length — with no emptiness check, so the empty slice
divides zero by zero. -/
def Mean (s : List ℚ) : GoFloat :=
  fdiv (s.foldl (· + ·) 0) (s.length : ℚ)

/-- `Median` (line 37): error on the empty slice, otherwise sort the
caller's slice in place and read the middle.  The function returns the
pair (Go result, final contents of the caller's slice) so that the
mutation of the argument is observable.  Both reads are in range, so
`getD` never takes its fallback. -/
def Median (s : List ℚ) : GoResult ℚ × List ℚ :=
  if s.length = 0 then (.err "cannot calculate median of empty slice", s)
  else
    let t := sortGo s
    if s.length % 2 = 0 then
      (.ok ((t.getD (s.length / 2 - 1) 0 + t.getD (s.length / 2) 0) / 2), t)
    else
      (.ok (t.getD ((s.length - 1) / 2) 0), t)

/-- `Range` (line 59): error on the empty slice, otherwise sort the
caller's slice in place and return (minimum, maximum) plus the final
slice contents. -/
def Range (s : List ℚ) : GoResult (ℚ × ℚ) × List ℚ :=
  if s.length = 0 then (.err "cannot calculate range of empty slice", s)
  else
    let t := sortGo s
    (.ok (t.getD 0 0, t.getD (s.length - 1) 0), t)

/-- `Variance` (line 83): error below two elements, otherwise the sum of
squared deviations from `Mean` divided by `n - 1`.  With `n ≥ 2` the
`Mean` is finite, projected by `GoFloat.getVal`. -/
def Variance (s : List ℚ) : GoResult ℚ :=
  if s.length < 2 then .err "variance requires at least two elements"
  else
    .ok ((s.foldl
        (fun acc x => acc + (x - (Mean s).getVal) * (x - (Mean s).getVal)) 0) /
      ((s.length : ℚ) - 1))

/-- `StandardDeviation` (line 104): propagate the `Variance` error,
otherwise `math.Sqrt` of the variance.  `math.Sqrt` is left as an
uninterpreted parameter `sq`: the claims about this function concern
only its error path. -/
def StandardDeviation (sq : ℚ → ℚ) (s : List ℚ) : GoResult ℚ :=
  match Variance s with
  | .err e => .err e
  | .ok v => .ok (sq v)
  | .panicked => .panicked

/-- Go conversion `int(f)` of a finite `float64`: truncation toward
zero. -/
def truncQ (q : ℚ) : Int :=
  if 0 ≤ q then ⌊q⌋ else -⌊-q⌋

/-- `Percentile` (line 115): error on the empty slice, otherwise sort
the caller's slice in place, truncate `rank = (n-1)*p` to `idx`, return
the last element when `idx = n-1` and otherwise interpolate between
`s[idx]` and `s[idx+1]` — panicking (out-of-range index) when `idx`
falls outside the slice.  Returns (Go result, final slice contents). -/
def Percentile (s : List ℚ) (p : ℚ) : GoResult ℚ × List ℚ :=
  if s.length = 0 then
    (.err "cannot calculate percentile of empty slice", s)
  else
    let t := sortGo s
    let rank : ℚ := ((s.length : ℚ) - 1) * p
    let idx : Int := truncQ rank
    if idx = (s.length : Int) - 1 then (.ok (t.getD (s.length - 1) 0), t)
    else if idx < 0 then (.panicked, t)
    else
      let frac : ℚ := rank - (idx : ℚ)
      match t[idx.toNat]?, t[idx.toNat + 1]? with
      | some a, some b => (.ok (a * (1 - frac) + b * frac), t)
      | _, _ => (.panicked, t)

/-! Basic lemmas on the Go map model. -/

theorem mapGet_mapSet_self {T : Type} (d : List (String × T)) (k : String)
    (v : T) : mapGet (mapSet d k v) k = some v := by
  induction d with
  | nil => simp [mapSet, mapGet]
  | cons hd tl ih =>
    by_cases h : hd.1 = k
    · simp [mapSet, mapGet, h]
    · simpa [mapSet, mapGet, h] using ih

theorem mapGet_mapSet_ne {T : Type} (d : List (String × T)) (k k2 : String)
    (v : T) (h : k ≠ k2) : mapGet (mapSet d k v) k2 = mapGet d k2 := by
  induction d with
  | nil => simp [mapSet, mapGet, h]
  | cons hd tl ih =>
    obtain ⟨a, b⟩ := hd
    by_cases h2 : a = k
    · subst h2
      simp only [mapSet, if_pos rfl, mapGet, if_neg h]
    · by_cases h3 : a = k2
      · simp only [mapSet, if_neg h2, mapGet, if_pos h3]
      · simp only [mapSet, if_neg h2, mapGet, if_neg h3]
        exact ih

theorem mapGet_mapDel_self {T : Type} (d : List (String × T)) (k : String) :
    mapGet (mapDel d k) k = none := by
  induction d with
  | nil => simp [mapDel, mapGet]
  | cons hd tl ih =>
    by_cases h : hd.1 = k
    · simpa [mapDel, h] using ih
    · simpa [mapDel, mapGet, h] using ih

theorem mapGet_mapDel_ne {T : Type} (d : List (String × T)) (k k2 : String)
    (h : k2 ≠ k) : mapGet (mapDel d k) k2 = mapGet d k2 := by
  induction d with
  | nil => simp [mapDel]
  | cons hd tl ih =>
    obtain ⟨a, b⟩ := hd
    by_cases h2 : a = k
    · subst h2
      have h3 : ¬ a = k2 := fun he => h he.symm
      simp only [mapDel, if_pos rfl, mapGet, if_neg h3]
      exact ih
    · by_cases h3 : a = k2
      · simp only [mapDel, if_neg h2, mapGet, if_pos h3]
      · simp only [mapDel, if_neg h2, mapGet, if_neg h3]
        exact ih

theorem mem_of_mapGet_eq_some {T : Type} (d : List (String × T))
    (k : String) (v : T) (h : mapGet d k = some v) : (k, v) ∈ d := by
  induction d with
  | nil => simp [mapGet] at h
  | cons hd tl ih =>
    obtain ⟨a, b⟩ := hd
    by_cases h2 : a = k
    · subst h2
      simp only [mapGet, if_pos rfl] at h
      have hb : b = v := Option.some.inj h
      subst hb
      exact List.mem_cons_self _ _
    · simp only [mapGet, if_neg h2] at h
      exact List.mem_cons_of_mem _ (ih h)

theorem mapGet_eq_none_of_not_mem {T : Type} (d : List (String × T))
    (k : String) (h : k ∉ d.map Prod.fst) : mapGet d k = none := by
  induction d with
  | nil => rfl
  | cons hd tl ih =>
    simp only [List.map_cons, List.mem_cons, not_or] at h
    have h2 : hd.1 ≠ k := fun he => h.1 he.symm
    simp only [mapGet, if_neg h2]
    exact ih h.2

theorem filter_ne_of_not_mem (l : List String) (k : String) (h : k ∉ l) :
    l.filter (fun y => y ≠ k) = l := by
  induction l with
  | nil => rfl
  | cons x rest ih =>
    simp only [List.mem_cons, not_or] at h
    have h2 : ¬ x = k := fun he => h.1 he.symm
    rw [List.filter_cons_of_pos (by simpa using h2), ih h.2]

theorem eraseFirst_eq_filter (l : List String) (k : String)
    (h : l.Nodup) :
    SafeOrderedMap.eraseFirst l k = l.filter (fun x => x ≠ k) := by
  induction l with
  | nil => rfl
  | cons x rest ih =>
    rcases List.nodup_cons.mp h with ⟨hx, hrest⟩
    by_cases h2 : x = k
    · subst h2
      rw [List.filter_cons_of_neg (by simp), filter_ne_of_not_mem rest x hx]
      simp [SafeOrderedMap.eraseFirst]
    · simp only [SafeOrderedMap.eraseFirst, if_neg h2]
      rw [List.filter_cons_of_pos (by simpa using h2), ih hrest]

namespace SafeOrderedMap

theorem Add_order_of_none {T : Type} (m : SafeOrderedMap T) (k : String)
    (v : T) (h : mapGet m.data k = none) :
    (m.Add k v).order = m.order ++ [k] := by
  simp [Add, h]

theorem Add_order_of_isSome {T : Type} (m : SafeOrderedMap T) (k : String)
    (v : T) (h : (mapGet m.data k).isSome) :
    (m.Add k v).order = m.order := by
  simp [Add, h]

theorem foldAdd_order {T : Type} (ps : List (String × T)) :
    ∀ m : SafeOrderedMap T, (ps.map Prod.fst).Nodup →
      (∀ kv ∈ ps, mapGet m.data kv.1 = none) →
      (foldAdd m ps).order = m.order ++ ps.map Prod.fst := by
  induction ps with
  | nil => intro m _ _; simp [foldAdd]
  | cons hd tl ih =>
    intro m hnd hdisj
    have hnd2 : (hd.1 :: tl.map Prod.fst).Nodup := hnd
    rcases List.nodup_cons.mp hnd2 with ⟨hhd, htl⟩
    have hres := ih (m.Add hd.1 hd.2) htl (fun kv hkv => by
      have hne : hd.1 ≠ kv.1 := by
        intro he
        exact hhd (he ▸ List.mem_map_of_mem Prod.fst hkv)
      rw [Add, mapGet_mapSet_ne m.data hd.1 kv.1 hd.2 hne]
      exact hdisj kv (List.mem_cons_of_mem _ hkv))
    have horder := Add_order_of_none m hd.1 hd.2 (hdisj hd (List.mem_cons_self _ _))
    calc (foldAdd m (hd :: tl)).order
        = (foldAdd (m.Add hd.1 hd.2) tl).order := rfl
      _ = (m.Add hd.1 hd.2).order ++ tl.map Prod.fst := hres
      _ = m.order ++ (hd :: tl).map Prod.fst := by
          rw [horder]; simp

theorem foldAdd_data_not_mem {T : Type} (ps : List (String × T)) :
    ∀ (m : SafeOrderedMap T) (k : String), k ∉ ps.map Prod.fst →
      mapGet (foldAdd m ps).data k = mapGet m.data k := by
  induction ps with
  | nil => intro m k _; rfl
  | cons hd tl ih =>
    intro m k hk
    simp only [List.map_cons, List.mem_cons, not_or] at hk
    calc mapGet (foldAdd (m.Add hd.1 hd.2) tl).data k
        = mapGet (m.Add hd.1 hd.2).data k := ih _ k hk.2
      _ = mapGet m.data k := by
          rw [Add, mapGet_mapSet_ne m.data hd.1 k hd.2 (fun he => hk.1 he.symm)]

theorem foldAdd_data_mem {T : Type} (ps : List (String × T)) :
    ∀ m : SafeOrderedMap T, (ps.map Prod.fst).Nodup →
      ∀ kv ∈ ps, mapGet (foldAdd m ps).data kv.1 = some kv.2 := by
  induction ps with
  | nil => intro m _ kv hkv; simp at hkv
  | cons hd tl ih =>
    intro m hnd kv hkv
    have hnd2 : (hd.1 :: tl.map Prod.fst).Nodup := hnd
    rcases List.nodup_cons.mp hnd2 with ⟨hhd, htl⟩
    rcases List.mem_cons.mp hkv with h | h
    · subst h
      calc mapGet (foldAdd (m.Add kv.1 kv.2) tl).data kv.1
          = mapGet (m.Add kv.1 kv.2).data kv.1 :=
            foldAdd_data_not_mem tl _ kv.1 hhd
        _ = some kv.2 := mapGet_mapSet_self m.data kv.1 kv.2
    · exact ih (m.Add hd.1 hd.2) htl kv h

end SafeOrderedMap

namespace SafeOrderedMap

/-- C1: the claim states that every operation, `UnmarshalJSON` included,
maintains invariant I1 (`order` holds exactly the keys of `data`).  The
code violates it: `UnmarshalJSON` resets `order` but never clears
`data`, so unmarshalling `{"b":2}` into a map already holding key `"a"`
leaves `"a"` in `data` while `order` becomes `["b"]`. -/
theorem C1_unmarshal_breaks_invariant :
    ¬ Invariant
      (Prod.snd (((New Int).Add "a" 1).UnmarshalJSON
        (Except.ok [("b", 2)]))) := by
  decide

/-- C2: the claim states that after a successful `UnmarshalJSON(d)` the
map holds exactly `d`'s fields.  The code violates it: on the same input
as C1, the decode succeeds, `"a"` is not a field of the decoded object,
yet `Get "a"` still reports the key as present. -/
theorem C2_unmarshal_stale_entry :
    exceptIsOk (Prod.fst (((New Int).Add "a" 1).UnmarshalJSON
        (Except.ok [("b", 2)]))) = true ∧
    ((Prod.snd (((New Int).Add "a" 1).UnmarshalJSON
        (Except.ok [("b", 2)]))).Get "a").2 = true ∧
    "a" ∉ ([("b", (2 : Int))].map Prod.fst) := by
  decide

/-- C3: from the empty map, a sequence of `Add` calls with pairwise
distinct keys yields `Keys()` equal to the key sequence in call order;
`Add` on a present key updates the value without touching `order`; and
any `Add` leaves `order` unchanged or appends at the end, so the
relative order of present keys never changes. -/
theorem C3_add_order_spec {T : Type} (ps : List (String × T))
    (hnd : (ps.map Prod.fst).Nodup) (m : SafeOrderedMap T) (k : String)
    (v : T) (hk : (mapGet m.data k).isSome) :
    (foldAdd (New T) ps).Keys = ps.map Prod.fst ∧
    ((m.Add k v).order = m.order ∧ mapGet (m.Add k v).data k = some v) ∧
    (∀ (m2 : SafeOrderedMap T) (k2 : String) (v2 : T),
      (m2.Add k2 v2).order = m2.order ∨
      (m2.Add k2 v2).order = m2.order ++ [k2]) := by
  refine ⟨?_, ⟨Add_order_of_isSome m k v hk, ?_⟩, ?_⟩
  · have h := foldAdd_order ps (New T) hnd (fun kv _ => rfl)
    simpa [Keys, New] using h
  · exact mapGet_mapSet_self m.data k v
  · intro m2 k2 v2
    by_cases h : (mapGet m2.data k2).isSome
    · exact Or.inl (Add_order_of_isSome m2 k2 v2 h)
    · exact Or.inr (Add_order_of_none m2 k2 v2
        (Option.not_isSome_iff_eq_none.mp h))

/-- Witness for C3 at a concrete input: two distinct adds, then a
re-add of `"a"`. -/
theorem C3_add_order_spec_witness :
    (foldAdd (New Int) [("a", 1), ("b", 2)]).Keys
        = [("a", (1 : Int)), ("b", 2)].map Prod.fst ∧
    ((((New Int).Add "a" 1).Add "a" 5).order
        = ((New Int).Add "a" 1).order ∧
      mapGet (((New Int).Add "a" 1).Add "a" 5).data "a" = some 5) ∧
    (∀ (m2 : SafeOrderedMap Int) (k2 : String) (v2 : Int),
      (m2.Add k2 v2).order = m2.order ∨
      (m2.Add k2 v2).order = m2.order ++ [k2]) :=
  C3_add_order_spec [("a", 1), ("b", 2)] (by decide)
    ((New Int).Add "a" 1) "a" 5 (by decide)

/-- C5: deleting a present key removes it from both `data` and `order`,
keeping the remaining keys' relative order (`Keys` afterwards is `Keys`
before with `k` filtered out) and every other binding; deleting an
absent key changes nothing and reports no error. -/
theorem C5_delete_spec {T : Type} (m : SafeOrderedMap T) (k : String)
    (hinv : m.Invariant) :
    ((mapGet m.data k).isSome →
      (m.Delete k).Keys = m.Keys.filter (fun x => x ≠ k) ∧
      mapGet (m.Delete k).data k = none ∧
      (∀ k2, k2 ≠ k → mapGet (m.Delete k).data k2 = mapGet m.data k2)) ∧
    (mapGet m.data k = none → m.Delete k = m) := by
  constructor
  · intro hk
    refine ⟨?_, ?_, ?_⟩
    · show (m.Delete k).order = m.order.filter (fun x => x ≠ k)
      simp only [Delete, if_pos hk]
      exact eraseFirst_eq_filter m.order k hinv.1
    · simp only [Delete, if_pos hk]
      exact mapGet_mapDel_self m.data k
    · intro k2 hne
      simp only [Delete, if_pos hk]
      exact mapGet_mapDel_ne m.data k k2 hne
  · intro hnone
    simp [Delete, hnone]

/-- Witness for C5 at a concrete input: delete the middle key of a
three-key map. -/
theorem C5_delete_spec_witness :
    ((((((New Int).Add "a" 1).Add "b" 2).Add "c" 3).Delete "b").Keys
        = ((((New Int).Add "a" 1).Add "b" 2).Add "c" 3).Keys.filter
            (fun x => x ≠ "b")) ∧
    mapGet (((((New Int).Add "a" 1).Add "b" 2).Add "c" 3).Delete "b").data
        "b" = none :=
  ⟨((C5_delete_spec _ "b" (by decide)).1 (by decide)).1,
   ((C5_delete_spec _ "b" (by decide)).1 (by decide)).2.1⟩

theorem indexAux_not_mem {T : Type} [Inhabited T] (d : List (String × T))
    (k : String) (l : List String) (i : Nat) (h : k ∉ l) :
    indexAux d k l i = (-1, default, false) := by
  induction l generalizing i with
  | nil => rfl
  | cons x rest ih =>
    simp only [List.mem_cons, not_or] at h
    have hx : ¬ x = k := fun he => h.1 he.symm
    simp only [indexAux, if_neg hx]
    exact ih _ h.2

theorem indexAux_mem {T : Type} [Inhabited T] (d : List (String × T))
    (k : String) (l : List String) (i : Nat) (h : k ∈ l) :
    indexAux d k l i
      = (((i + rankOf k l : Nat) : Int), (mapGet d k).getD default, true) := by
  induction l generalizing i with
  | nil => cases h
  | cons x rest ih =>
    by_cases hx : x = k
    · simp [indexAux, rankOf, hx]
    · have h2 : k ∈ rest := by
        rcases List.mem_cons.mp h with h3 | h3
        · exact absurd h3.symm hx
        · exact h3
      simp only [indexAux, if_neg hx, rankOf]
      rw [ih _ h2]
      have harith : i + 1 + rankOf k rest = i + (rankOf k rest + 1) := by
        omega
      rw [harith]

/-- C9: `Index` on an absent key yields position `-1`, the zero value
and `found = false`; on a present key it yields the key's zero-based
rank in `order`, the stored value and `found = true`. -/
theorem C9_index_spec {T : Type} [Inhabited T] (m : SafeOrderedMap T)
    (k : String) (hinv : m.Invariant) :
    (mapGet m.data k = none → m.Index k = (-1, default, false)) ∧
    (∀ v, mapGet m.data k = some v →
      m.Index k = (((rankOf k m.order : Nat) : Int), v, true)) := by
  constructor
  · intro hnone
    apply indexAux_not_mem
    intro hmem
    have hs := hinv.2.1 k hmem
    rw [hnone] at hs
    cases hs
  · intro v hv
    have hmem : k ∈ m.order :=
      hinv.2.2 (k, v) (mem_of_mapGet_eq_some m.data k v hv)
    rw [Index, indexAux_mem m.data k m.order 0 hmem, hv]
    simp

/-- Witness for C9 at a concrete input: one absent key, one present
key. -/
theorem C9_index_spec_witness :
    ((((New Int).Add "a" 1).Add "b" 2).Index "z" = (-1, default, false)) ∧
    ((((New Int).Add "a" 1).Add "b" 2).Index "b"
      = (((rankOf "b" (((New Int).Add "a" 1).Add "b" 2).order : Nat) : Int),
          2, true)) :=
  ⟨(C9_index_spec _ "z" (by decide)).1 (by decide),
   (C9_index_spec _ "b" (by decide)).2 2 (by decide)⟩

/-- C7: `Keys` returns the order list, `Values` has the same length,
and the value at each index is exactly the binding stored in `data`
under the key at that index. -/
theorem C7_keys_values {T : Type} [Inhabited T] (m : SafeOrderedMap T)
    (hinv : m.Invariant) :
    m.Keys = m.order ∧ m.Values.length = m.Keys.length ∧
    (∀ i, i < m.Keys.length →
      mapGet m.data (m.Keys.getD i "") = some (m.Values.getD i default)) := by
  refine ⟨rfl, by simp [Values, Keys], ?_⟩
  intro i hi
  have hi2 : i < m.order.length := hi
  obtain ⟨k0, hk0⟩ : ∃ k0, m.order.get? i = some k0 :=
    ⟨m.order.get ⟨i, hi2⟩, List.get?_eq_get hi2⟩
  have hkey : m.Keys.getD i "" = k0 := by
    show (m.order.get? i).getD "" = k0
    rw [hk0]
    rfl
  have hval : m.Values.getD i default = (mapGet m.data k0).getD default := by
    show (m.Values.get? i).getD default = _
    rw [Values, List.get?_map, hk0]
    rfl
  have hmem : k0 ∈ m.order := List.get?_mem hk0
  obtain ⟨v, hv⟩ := Option.isSome_iff_exists.mp (hinv.2.1 k0 hmem)
  rw [hkey, hval, hv]
  rfl

/-- Witness for C7 at a concrete two-key map, index 1. -/
theorem C7_keys_values_witness :
    (((New Int).Add "a" 1).Add "b" 2).Keys
        = (((New Int).Add "a" 1).Add "b" 2).order ∧
    mapGet (((New Int).Add "a" 1).Add "b" 2).data
        ((((New Int).Add "a" 1).Add "b" 2).Keys.getD 1 "")
      = some ((((New Int).Add "a" 1).Add "b" 2).Values.getD 1 default) :=
  ⟨(C7_keys_values _ (by decide)).1,
   (C7_keys_values _ (by decide)).2.2 1 (by decide)⟩

theorem takeWhileAux_eq_foldAdd {T : Type} [Inhabited T]
    (d : List (String × T)) (p : String → T → Bool) (l : List String) :
    ∀ acc : SafeOrderedMap T,
      takeWhileAux d p l acc
        = foldAdd acc
            ((l.takeWhile (fun k => p k ((mapGet d k).getD default))).map
              (fun k => (k, (mapGet d k).getD default))) := by
  induction l with
  | nil => intro acc; rfl
  | cons k rest ih =>
    intro acc
    by_cases hp : p k ((mapGet d k).getD default) = true
    · have ht : (k :: rest).takeWhile
          (fun k2 => p k2 ((mapGet d k2).getD default))
          = k :: rest.takeWhile (fun k2 => p k2 ((mapGet d k2).getD default)) := by
        simp [List.takeWhile_cons, hp]
      simp only [takeWhileAux, if_pos hp, ht, List.map_cons]
      exact ih (acc.Add k ((mapGet d k).getD default))
    · have ht : (k :: rest).takeWhile
          (fun k2 => p k2 ((mapGet d k2).getD default)) = [] := by
        simp [List.takeWhile_cons, hp]
      simp only [takeWhileAux, if_neg hp, ht, List.map_nil]
      rfl

theorem dropWhileAux_false {T : Type} [Inhabited T]
    (d : List (String × T)) (p : String → T → Bool) (l : List String) :
    ∀ acc : SafeOrderedMap T,
      dropWhileAux d p l false acc
        = foldAdd acc (l.map (fun k => (k, (mapGet d k).getD default))) := by
  induction l with
  | nil => intro acc; rfl
  | cons k rest ih =>
    intro acc
    simp only [dropWhileAux, Bool.false_and, List.map_cons]
    exact ih (acc.Add k ((mapGet d k).getD default))

theorem dropWhileAux_true {T : Type} [Inhabited T]
    (d : List (String × T)) (p : String → T → Bool) (l : List String) :
    ∀ acc : SafeOrderedMap T,
      dropWhileAux d p l true acc
        = foldAdd acc
            ((l.dropWhile (fun k => p k ((mapGet d k).getD default))).map
              (fun k => (k, (mapGet d k).getD default))) := by
  induction l with
  | nil => intro acc; rfl
  | cons k rest ih =>
    intro acc
    by_cases hp : p k ((mapGet d k).getD default) = true
    · have hdw : (k :: rest).dropWhile
          (fun k2 => p k2 ((mapGet d k2).getD default))
          = rest.dropWhile (fun k2 => p k2 ((mapGet d k2).getD default)) := by
        simp [List.dropWhile_cons, hp]
      simp only [dropWhileAux, hp, Bool.not_true, Bool.and_false, hdw]
      exact ih acc
    · have hp2 : p k ((mapGet d k).getD default) = false :=
        Bool.eq_false_iff.mpr hp
      have hdw : (k :: rest).dropWhile
          (fun k2 => p k2 ((mapGet d k2).getD default)) = k :: rest := by
        simp [List.dropWhile_cons, hp2]
      simp only [dropWhileAux, hp2, Bool.not_false, Bool.and_true, hdw,
        List.map_cons]
      exact dropWhileAux_false d p rest (acc.Add k ((mapGet d k).getD default))

theorem foldAdd_new_keys_values {T : Type} [Inhabited T]
    (d : List (String × T)) (l : List String) (hnd : l.Nodup) :
    (foldAdd (New T)
        (l.map (fun k => (k, (mapGet d k).getD default)))).Keys = l ∧
    (foldAdd (New T)
        (l.map (fun k => (k, (mapGet d k).getD default)))).Values
      = l.map (fun k => (mapGet d k).getD default) := by
  have hfst : (l.map (fun k => (k, (mapGet d k).getD default))).map Prod.fst
      = l := by
    rw [List.map_map]
    have h1 : List.map (Prod.fst ∘ fun k => (k, (mapGet d k).getD default)) l
        = List.map id l :=
      List.map_eq_map_iff.mpr (fun a _ => rfl)
    rw [h1, List.map_id]
  have hnd2 : ((l.map (fun k => (k, (mapGet d k).getD default))).map
      Prod.fst).Nodup := by
    rw [hfst]; exact hnd
  have horder := foldAdd_order (l.map (fun k => (k, (mapGet d k).getD default)))
    (New T) hnd2 (fun kv _ => rfl)
  have hkeys : (foldAdd (New T)
      (l.map (fun k => (k, (mapGet d k).getD default)))).Keys = l := by
    show (foldAdd (New T) _).order = l
    rw [horder, hfst]
    rfl
  refine ⟨hkeys, ?_⟩
  show (foldAdd (New T) _).order.map _ = _
  rw [show (foldAdd (New T)
      (l.map (fun k => (k, (mapGet d k).getD default)))).order = l from hkeys]
  apply List.map_eq_map_iff.mpr
  intro k hk
  have hmem : (k, (mapGet d k).getD default)
      ∈ l.map (fun k2 => (k2, (mapGet d k2).getD default)) :=
    List.mem_map_of_mem _ hk
  have hdata := foldAdd_data_mem
    (l.map (fun k2 => (k2, (mapGet d k2).getD default))) (New T) hnd2
    (k, (mapGet d k).getD default) hmem
  rw [hdata]
  rfl

/-- C6: the values of `TakeWhile p` followed by the values of
`DropWhile p` are exactly the original `Values()`; `TakeWhile` keeps
precisely the longest prefix of `order` whose entries satisfy `p`
(stopping at the first failure), and `DropWhile` keeps everything from
the first failing entry onward, in order.  Stated under invariant I1
and, as in the claim, for a predicate that holds on a prefix of the
traversal and fails from some point on. -/
theorem C6_takewhile_dropwhile {T : Type} [Inhabited T]
    (m : SafeOrderedMap T) (p : String → T → Bool) (hinv : m.Invariant)
    (hmono : m.order.Pairwise (fun a b =>
      p b ((mapGet m.data b).getD default) = true →
      p a ((mapGet m.data a).getD default) = true)) :
    (m.TakeWhile p).Values ++ (m.DropWhile p).Values = m.Values ∧
    (m.TakeWhile p).Keys
      = m.order.takeWhile (fun k => p k ((mapGet m.data k).getD default)) ∧
    (m.DropWhile p).Keys
      = m.order.dropWhile (fun k => p k ((mapGet m.data k).getD default)) := by
  have hndt : (m.order.takeWhile
      (fun k => p k ((mapGet m.data k).getD default))).Nodup :=
    hinv.1.sublist (List.takeWhile_sublist _)
  have hndd : (m.order.dropWhile
      (fun k => p k ((mapGet m.data k).getD default))).Nodup :=
    hinv.1.sublist (List.dropWhile_sublist _)
  have htake : m.TakeWhile p
      = foldAdd (New T)
          ((m.order.takeWhile (fun k => p k ((mapGet m.data k).getD default))).map
            (fun k => (k, (mapGet m.data k).getD default))) :=
    takeWhileAux_eq_foldAdd m.data p m.order (New T)
  have hdrop : m.DropWhile p
      = foldAdd (New T)
          ((m.order.dropWhile (fun k => p k ((mapGet m.data k).getD default))).map
            (fun k => (k, (mapGet m.data k).getD default))) :=
    dropWhileAux_true m.data p m.order (New T)
  have htkv := foldAdd_new_keys_values m.data
    (m.order.takeWhile (fun k => p k ((mapGet m.data k).getD default))) hndt
  have hdkv := foldAdd_new_keys_values m.data
    (m.order.dropWhile (fun k => p k ((mapGet m.data k).getD default))) hndd
  refine ⟨?_, ?_, ?_⟩
  · rw [htake, hdrop, htkv.2, hdkv.2]
    show _ = m.order.map (fun k => (mapGet m.data k).getD default)
    rw [← List.map_append, List.takeWhile_append_dropWhile]
  · rw [htake]
    exact htkv.1
  · rw [hdrop]
    exact hdkv.1

/-- Witness for C6 at a concrete input: three entries with values
`1, 2, 3` and the monotonic predicate `value < 2`. -/
theorem C6_takewhile_dropwhile_witness :
    ((((((New Int).Add "a" 1).Add "b" 2).Add "c" 3).TakeWhile
        (fun _ v => v < 2)).Values ++
      (((((New Int).Add "a" 1).Add "b" 2).Add "c" 3).DropWhile
        (fun _ v => v < 2)).Values
      = ((((New Int).Add "a" 1).Add "b" 2).Add "c" 3).Values) ∧
    ((((((New Int).Add "a" 1).Add "b" 2).Add "c" 3).TakeWhile
        (fun _ v => v < 2)).Keys
      = ((((New Int).Add "a" 1).Add "b" 2).Add "c" 3).order.takeWhile
          (fun k => (fun (_ : String) (v : Int) => decide (v < 2)) k
            ((mapGet ((((New Int).Add "a" 1).Add "b" 2).Add "c" 3).data
              k).getD default))) :=
  ⟨(C6_takewhile_dropwhile ((((New Int).Add "a" 1).Add "b" 2).Add "c" 3)
      (fun _ v => v < 2) (by decide) (by decide)).1,
   (C6_takewhile_dropwhile ((((New Int).Add "a" 1).Add "b" 2).Add "c" 3)
      (fun _ v => v < 2) (by decide) (by decide)).2.1⟩

end SafeOrderedMap

/-! Claims on the statistical module. -/

theorem sortGo_length (s : List ℚ) : (sortGo s).length = s.length :=
  (List.perm_insertionSort _ s).length_eq

theorem Median_snd (s : List ℚ) : (Median s).2 = sortGo s := by
  by_cases hs : s.length = 0
  · have h0 : s = [] := List.length_eq_zero.mp hs
    subst h0
    rfl
  · simp only [Median]
    rw [if_neg hs]
    by_cases h2 : s.length % 2 = 0
    · rw [if_pos h2]
    · rw [if_neg h2]

theorem Range_snd (s : List ℚ) : (Range s).2 = sortGo s := by
  by_cases hs : s.length = 0
  · have h0 : s = [] := List.length_eq_zero.mp hs
    subst h0
    rfl
  · simp only [Range]
    rw [if_neg hs]

theorem Percentile_snd (s : List ℚ) (p : ℚ) :
    (Percentile s p).2 = sortGo s := by
  by_cases hs : s.length = 0
  · have h0 : s = [] := List.length_eq_zero.mp hs
    subst h0
    rfl
  · simp only [Percentile]
    rw [if_neg hs]
    by_cases he : truncQ (((s.length : ℚ) - 1) * p) = (s.length : Int) - 1
    · rw [if_pos he]
    · rw [if_neg he]
      by_cases hneg : truncQ (((s.length : ℚ) - 1) * p) < 0
      · rw [if_pos hneg]
      · rw [if_neg hneg]
        cases (sortGo s)[(truncQ (((s.length : ℚ) - 1) * p)).toNat]? with
        | none => rfl
        | some a =>
          cases (sortGo s)[(truncQ (((s.length : ℚ) - 1) * p)).toNat + 1]? with
          | none => rfl
          | some b => rfl

/-- C4 counterexample: `Median` hands back the caller's slice sorted,
so the slice `[3, 1, 2]` does not survive the call unchanged. -/
theorem C4_median_mutates_input : (Median [3, 1, 2]).2 ≠ [3, 1, 2] := by
  decide

/-- C4 amended: `Median`, `Range` and `Percentile` do not leave the
caller's slice unchanged — each sorts it in place, leaving the same
elements rearranged nondecreasingly (the empty slice, returned before
sorting, is unchanged, which the sorted-permutation statement also
covers). -/
theorem C4_sort_in_place (s : List ℚ) (p : ℚ) :
    (Median s).2 = sortGo s ∧ (Range s).2 = sortGo s ∧
    (Percentile s p).2 = sortGo s ∧
    (sortGo s).Perm s ∧ List.Sorted (· ≤ ·) (sortGo s) :=
  ⟨Median_snd s, Range_snd s, Percentile_snd s p,
    List.perm_insertionSort _ s, List.sorted_insertionSort _ s⟩

theorem Median_ok (s : List ℚ) (hs : s ≠ []) :
    ∃ q, (Median s).1 = GoResult.ok q := by
  have hn : ¬ s.length = 0 := fun h => hs (List.length_eq_zero.mp h)
  simp only [Median]
  rw [if_neg hn]
  by_cases h2 : s.length % 2 = 0
  · rw [if_pos h2]; exact ⟨_, rfl⟩
  · rw [if_neg h2]; exact ⟨_, rfl⟩

theorem Range_ok (s : List ℚ) (hs : s ≠ []) :
    ∃ q, (Range s).1 = GoResult.ok q := by
  have hn : ¬ s.length = 0 := fun h => hs (List.length_eq_zero.mp h)
  simp only [Range]
  rw [if_neg hn]
  exact ⟨_, rfl⟩

theorem Variance_ok (s : List ℚ) (hs : 2 ≤ s.length) :
    ∃ q, Variance s = GoResult.ok q := by
  simp only [Variance]
  rw [if_neg (by omega)]
  exact ⟨_, rfl⟩

theorem StandardDeviation_ok (sq : ℚ → ℚ) (s : List ℚ)
    (hs : 2 ≤ s.length) :
    ∃ q, StandardDeviation sq s = GoResult.ok q := by
  obtain ⟨q, hq⟩ := Variance_ok s hs
  rw [StandardDeviation, hq]
  exact ⟨_, rfl⟩

theorem Percentile_ok (s : List ℚ) (p : ℚ) (hs : s ≠ []) (h0 : 0 ≤ p)
    (h1 : p ≤ 1) : ∃ q, (Percentile s p).1 = GoResult.ok q := by
  have hn : ¬ s.length = 0 := fun h => hs (List.length_eq_zero.mp h)
  have hn1 : 1 ≤ s.length := Nat.one_le_iff_ne_zero.mpr hn
  have hcast : (1 : ℚ) ≤ (s.length : ℚ) := by exact_mod_cast hn1
  have hrank0 : 0 ≤ ((s.length : ℚ) - 1) * p :=
    mul_nonneg (by linarith) h0
  have hrankle : ((s.length : ℚ) - 1) * p ≤ (s.length : ℚ) - 1 := by
    calc ((s.length : ℚ) - 1) * p ≤ ((s.length : ℚ) - 1) * 1 :=
          mul_le_mul_of_nonneg_left h1 (by linarith)
      _ = (s.length : ℚ) - 1 := mul_one _
  have hidx : truncQ (((s.length : ℚ) - 1) * p)
      = ⌊((s.length : ℚ) - 1) * p⌋ := by
    rw [truncQ, if_pos hrank0]
  have hidx0 : 0 ≤ truncQ (((s.length : ℚ) - 1) * p) := by
    rw [hidx]
    exact Int.floor_nonneg.mpr hrank0
  have hidxle : truncQ (((s.length : ℚ) - 1) * p) ≤ (s.length : Int) - 1 := by
    rw [hidx]
    have hc : ((((s.length : Int) - 1 : Int)) : ℚ) = (s.length : ℚ) - 1 := by
      push_cast
      ring
    calc ⌊((s.length : ℚ) - 1) * p⌋ ≤ ⌊(s.length : ℚ) - 1⌋ :=
          Int.floor_le_floor hrankle
      _ = (s.length : Int) - 1 := by rw [← hc, Int.floor_intCast]
  simp only [Percentile]
  rw [if_neg hn]
  by_cases he : truncQ (((s.length : ℚ) - 1) * p) = (s.length : Int) - 1
  · rw [if_pos he]
    exact ⟨_, rfl⟩
  · rw [if_neg he, if_neg (not_lt.mpr hidx0)]
    have hlt : truncQ (((s.length : ℚ) - 1) * p) < (s.length : Int) - 1 :=
      lt_of_le_of_ne hidxle he
    have htn : (sortGo s).length = s.length := sortGo_length s
    have h3 : (truncQ (((s.length : ℚ) - 1) * p)).toNat < (sortGo s).length := by
      omega
    have h2 : (truncQ (((s.length : ℚ) - 1) * p)).toNat + 1
        < (sortGo s).length := by
      omega
    rw [List.getElem?_eq_getElem h3, List.getElem?_eq_getElem h2]
    exact ⟨_, rfl⟩

theorem Percentile_no_err (s : List ℚ) (p : ℚ) (hs : s ≠ []) :
    (Percentile s p).1.isErr = false := by
  have hn : ¬ s.length = 0 := fun h => hs (List.length_eq_zero.mp h)
  simp only [Percentile]
  rw [if_neg hn]
  by_cases he : truncQ (((s.length : ℚ) - 1) * p) = (s.length : Int) - 1
  · rw [if_pos he]; rfl
  · rw [if_neg he]
    by_cases hneg : truncQ (((s.length : ℚ) - 1) * p) < 0
    · rw [if_pos hneg]; rfl
    · rw [if_neg hneg]
      cases (sortGo s)[(truncQ (((s.length : ℚ) - 1) * p)).toNat]? with
      | none => rfl
      | some a =>
        cases (sortGo s)[(truncQ (((s.length : ℚ) - 1) * p)).toNat + 1]? with
        | none => rfl
        | some b => rfl

/-- C8 counterexample: the claim says every non-empty call succeeds,
but `Percentile` on the two-element slice `[0, 1]` with `p = 2` hits an
out-of-range index (rank `(n-1)*p = 2` truncates to index 2, the code
then reads `s[2]` and `s[3]`) — a panic, not a returned value or
error. -/
theorem C8_percentile_panics :
    (Percentile [0, 1] 2).1 = GoResult.panicked := by
  norm_num [Percentile, truncQ, sortGo]
  rfl

/-- C8 amended: `Median` and `Range` error exactly on the empty slice,
`Variance` and `StandardDeviation` exactly below two elements, and
`Percentile` errors exactly on the empty slice; a non-empty `Percentile`
call succeeds whenever `0 ≤ p ≤ 1`, while out-of-range `p` can panic
with an out-of-range index instead of returning an error. -/
theorem C8_error_conditions (s : List ℚ) (p : ℚ) (sq : ℚ → ℚ) :
    ((Median s).1.isErr = true ↔ s = []) ∧
    ((Range s).1.isErr = true ↔ s = []) ∧
    ((Variance s).isErr = true ↔ s.length < 2) ∧
    ((StandardDeviation sq s).isErr = true ↔ s.length < 2) ∧
    ((Percentile s p).1.isErr = true ↔ s = []) ∧
    (s ≠ [] → ∃ q, (Median s).1 = GoResult.ok q) ∧
    (s ≠ [] → ∃ q, (Range s).1 = GoResult.ok q) ∧
    (2 ≤ s.length → ∃ q, Variance s = GoResult.ok q) ∧
    (2 ≤ s.length → ∃ q, StandardDeviation sq s = GoResult.ok q) ∧
    (s ≠ [] → 0 ≤ p → p ≤ 1 → ∃ q, (Percentile s p).1 = GoResult.ok q) := by
  refine ⟨?_, ?_, ?_, ?_, ?_, Median_ok s, Range_ok s, Variance_ok s,
    StandardDeviation_ok sq s, Percentile_ok s p⟩
  · constructor
    · intro herr
      by_contra hne
      obtain ⟨q, hq⟩ := Median_ok s hne
      rw [hq] at herr
      cases herr
    · intro h
      subst h
      rfl
  · constructor
    · intro herr
      by_contra hne
      obtain ⟨q, hq⟩ := Range_ok s hne
      rw [hq] at herr
      cases herr
    · intro h
      subst h
      rfl
  · constructor
    · intro herr
      by_contra hge
      obtain ⟨q, hq⟩ := Variance_ok s (by omega)
      rw [hq] at herr
      cases herr
    · intro h
      simp only [Variance]
      rw [if_pos h]
      rfl
  · constructor
    · intro herr
      by_contra hge
      obtain ⟨q, hq⟩ := StandardDeviation_ok sq s (by omega)
      rw [hq] at herr
      cases herr
    · intro h
      have hv : Variance s = GoResult.err "variance requires at least two elements" := by
        simp only [Variance]
        rw [if_pos h]
      rw [StandardDeviation, hv]
      rfl
  · constructor
    · intro herr
      by_contra hne
      rw [Percentile_no_err s p hne] at herr
      cases herr
    · intro h
      subst h
      rfl

/-- Witness for C8 at a concrete input: the two-element slice `[1, 2]`
with `p = 1/2` and the identity in place of the square root. -/
theorem C8_error_conditions_witness :
    ((Median [(1 : ℚ), 2]).1.isErr = true ↔ [(1 : ℚ), 2] = []) ∧
    (∃ q, (Percentile [(1 : ℚ), 2] (1 / 2)).1 = GoResult.ok q) :=
  ⟨(C8_error_conditions [(1 : ℚ), 2] (1 / 2) id).1,
   (C8_error_conditions [(1 : ℚ), 2] (1 / 2) id).2.2.2.2.2.2.2.2.2
     (by decide) (by norm_num) (by norm_num)⟩

theorem foldl_add_rat (s : List ℚ) :
    ∀ a : ℚ, s.foldl (· + ·) a = a + s.sum := by
  induction s with
  | nil => intro a; simp
  | cons x rest ih =>
    intro a
    rw [List.foldl_cons, ih (a + x), List.sum_cons]
    ring

/-- C10: `Mean` is total — it has no error return.  On the empty slice
the Go code divides `0.0` by `0`, which is IEEE NaN; on any non-empty
slice it returns the fold-sum of the elements divided by their count. -/
theorem C10_mean_total (s : List ℚ) :
    (s = [] → Mean s = GoFloat.nan) ∧
    (s ≠ [] → Mean s = GoFloat.val (s.sum / (s.length : ℚ))) := by
  constructor
  · intro h
    subst h
    rfl
  · intro h
    have hn : ¬ s.length = 0 := fun h0 => h (List.length_eq_zero.mp h0)
    have hlen : (s.length : ℚ) ≠ 0 := by exact_mod_cast hn
    rw [Mean, foldl_add_rat s 0, zero_add, fdiv, if_neg hlen]

/-- Witness for C10 at a concrete input: the slice `[1, 3]` has mean
`2`. -/
theorem C10_mean_total_witness :
    Mean [(1 : ℚ), 3]
      = GoFloat.val (([(1 : ℚ), 3].sum) / (([(1 : ℚ), 3].length : ℚ))) :=
  (C10_mean_total [(1 : ℚ), 3]).2 (by decide)

end GoCommonTypes
